import Mathlib

/-!
Shallow embedding of the `small-middlewares` repository
(`src/Middlewares.js`, `src/lib/isFunction.js`, `src/MiddlewaresError.js`,
and the bundled variant that additionally carries `wrap`/`wrapWithStop`).

The chain is an ordered list of step values compared by identity; we model
JS values that may be stored in or passed through the chain with small
inductive types carrying identity tags.
-/

namespace SmallMiddlewares

/-- A JS value considered as a candidate middleware: either a function
(ordinary or asynchronous, both satisfy the tag check of `isFunction`)
or any other value.  The `id` field models JS reference identity, which is
what `!==` compares for functions. -/
inductive Value where
  | fn (id : Nat)
  | other (id : Nat)
deriving DecidableEq, Repr

/-- `isFunction` from `src/lib/isFunction.js`: the
`Object.prototype.toString` tag is `[object Function]` or
`[object AsyncFunction]` exactly for the function values of our model. -/
def isFunction : Value → Bool
  | .fn _ => true
  | .other _ => false

/-- The error kind of `src/MiddlewaresError.js`; the only message used by
the component is `VALUE_IS_NOT_A_MIDDLEWARE`. -/
inductive MiddlewaresError where
  | valueIsNotAMiddleware
deriving DecidableEq, Repr

/-- The chain state: the private `#middlewares` array. -/
abbrev Chain := List Value

/-- `#useOne`: `this.#middlewares.push(middleware)`. -/
def useOne (ms : Chain) (middleware : Value) : Chain :=
  ms ++ [middleware]

/-- `#unuseOne`: `this.#middlewares = this.#middlewares.filter((m) => m !== middleware)`. -/
def unuseOne (ms : Chain) (middleware : Value) : Chain :=
  ms.filter (fun m => m != middleware)

/-- `#useFirst`: `this.#middlewares.unshift(middleware)`. -/
def useFirstOne (ms : Chain) (middleware : Value) : Chain :=
  middleware :: ms

/-- JS `arr.splice(n, 0, x)` restricted to pure insertion: insert `x` at
index `n` (clamped to the length, as `splice` clamps). -/
def spliceInsert (arr : Chain) (n : Nat) (x : Value) : Chain :=
  arr.take n ++ x :: arr.drop n

/-- The scan loop of `#useRelative`:
`for (let i = 0; i < arr.length; i++) { const m = arr[i]; if (fn !== m) continue; arr.splice(i + diff, 0, middleware); i += 1; }`
(`i += 1` inside the body plus the loop's own `i++` advance the index by
two past an insertion). -/
def useRelativeLoop (middleware fn : Value) (diff : Nat) (arr : Chain) (i : Nat) : Chain :=
  if h : i < arr.length then
    if fn = arr.getD i (.fn 0) then
      useRelativeLoop middleware fn diff (spliceInsert arr (i + diff) middleware) (i + 2)
    else
      useRelativeLoop middleware fn diff arr (i + 1)
  else
    arr
termination_by arr.length - i
decreasing_by
  · simp only [spliceInsert, List.length_append, List.length_take, List.length_cons,
      List.length_drop]
    omega
  · omega

/-- `#useRelative(middleware, fn, diff)`: scan from index `0`. -/
def useRelative (ms : Chain) (middleware fn : Value) (diff : Nat) : Chain :=
  useRelativeLoop middleware fn diff ms 0

/-- `RelativePosition.BEFORE`. -/
def RelativePosition.BEFORE : Nat := 0

/-- `RelativePosition.AFTER`. -/
def RelativePosition.AFTER : Nat := 1

/-- The command dispatched by `#change` (the `command` string together with
the extra `...args` that `useRelative` receives). -/
inductive Command where
  | use
  | unuse
  | useFirst
  | useRelative (fn : Value) (diff : Nat)
deriving DecidableEq, Repr

/-- One `commands[command](middleware, ...args)` dispatch. -/
def applyCommand (cmd : Command) (ms : Chain) (m : Value) : Chain :=
  match cmd with
  | .use => useOne ms m
  | .unuse => unuseOne ms m
  | .useFirst => useFirstOne ms m
  | .useRelative fn diff => useRelative ms m fn diff

/-- `#change(command, middlewares, ...args)`: validate and apply each
candidate left to right; the first candidate failing `isFunction` throws
`MiddlewaresError` and the loop stops, leaving the effects of the earlier
candidates in place.  The result pairs the chain state when the call
returns (normally or by throw) with the thrown error, if any. -/
def change (cmd : Command) (middlewares : List Value) (ms : Chain) :
    Chain × Option MiddlewaresError :=
  match middlewares with
  | [] => (ms, none)
  | m :: rest =>
    if isFunction m then
      change cmd rest (applyCommand cmd ms m)
    else
      (ms, some .valueIsNotAMiddleware)

/-- `use(...middlewares)`. -/
def use (ms : Chain) (middlewares : List Value) : Chain × Option MiddlewaresError :=
  change .use middlewares ms

/-- `unuse(...middlewares)`. -/
def unuse (ms : Chain) (middlewares : List Value) : Chain × Option MiddlewaresError :=
  change .unuse middlewares ms

/-- `useFirst(...middlewares)`: `middlewares.reverse()` then
`#change('useFirst', middlewares)`. -/
def useFirst (ms : Chain) (middlewares : List Value) : Chain × Option MiddlewaresError :=
  change .useFirst middlewares.reverse ms

/-- `useBefore(middleware, ...middlewares)`. -/
def useBefore (ms : Chain) (middleware : Value) (middlewares : List Value) :
    Chain × Option MiddlewaresError :=
  change (.useRelative middleware RelativePosition.BEFORE) middlewares ms

/-- `useAfter(middleware, ...middlewares)`. -/
def useAfter (ms : Chain) (middleware : Value) (middlewares : List Value) :
    Chain × Option MiddlewaresError :=
  change (.useRelative middleware RelativePosition.AFTER) middlewares ms

/-- `reset()`. -/
def reset (_ms : Chain) : Chain := []

/-! ## Execution operations

A stored step is an arbitrary JS function; its observable interaction with
the engine is (a) the value its invocation resolves to (inspected by
`process`), and (b) whether and how it invokes the trailing stop-callback
that `processWithStop` passes (at most one call suffices to model the
scenarios of the specification, since the callback is idempotent on the
flag and its throw ends the call).  Step behaviour is supplied as an
environment mapping the step's identity and the caller's arguments to this
observable behaviour. -/

/-- A JS runtime value produced or consumed by a step: booleans, integers,
`null`, `undefined`, strings, and `Error` objects. -/
inductive JSVal where
  | bool (b : Bool)
  | num (n : Int)
  | null
  | undefined
  | str (s : String)
  | error (msg : String)
deriving DecidableEq, Repr

/-- JS truthiness of a `JSVal` (`if (err) ...`): `false`, `0`, `null`,
`undefined` and `""` are falsy; `Error` objects are truthy. -/
def truthy : JSVal → Bool
  | .bool b => b
  | .num n => n != 0
  | .null => false
  | .undefined => false
  | .str s => s != ""
  | .error _ => true

/-- An argument as a step receives it: either an ordinary value or the
per-call stop-callback that `processWithStop` appends. -/
inductive ArgVal where
  | val (v : JSVal)
  | stopCb
deriving DecidableEq, Repr

/-- A single invocation record: the step invoked and the exact argument
list it was invoked with. -/
abbrev Invocation := Value × List ArgVal

/-- `process(...arguments)` together with the trace of invocations it
performs: `for (const middleware of this.#middlewares) { const isStop = await middleware(...arguments); if (isStop === false) return false; } return true;`.
`ret m args` is the value step `m` resolves to when invoked with `args`. -/
def processGo (ret : Value → List JSVal → JSVal) (args : List JSVal) :
    Chain → Bool × List Invocation
  | [] => (true, [])
  | m :: rest =>
    let inv : Invocation := (m, args.map ArgVal.val)
    if ret m args = .bool false then
      (false, [inv])
    else
      let r := processGo ret args rest
      (r.1, inv :: r.2)

/-- `process` run on a chain from the first step. -/
def process (ret : Value → List JSVal → JSVal) (args : List JSVal) (ms : Chain) :
    Bool × List Invocation :=
  processGo ret args ms

/-- How a step behaves with respect to the stop-callback it receives from
`processWithStop`: it may not call it, or call it once — with no argument
(`stop()`), or with a value (`stop(v)`) — and, because
`const stop = (err) => { isStop = true; if (err) throw err; }` throws
synchronously inside the caller, the step may or may not catch that throw
(`catches`). -/
inductive StopCall where
  | noCall
  | call (arg : Option JSVal) (catches : Bool)
deriving DecidableEq, Repr

/-- Running one step under `processWithStop`: returns the value of the
`isStop` flag after the step settles and the exception escaping the step,
if any.  The stop-callback sets the flag and throws its argument when that
argument is truthy (an absent argument is `undefined`, which is falsy);
the throw escapes the step unless the step catches it. -/
def runStepW (beh : Value → List JSVal → StopCall × JSVal) (args : List JSVal)
    (m : Value) : Bool × Option JSVal :=
  match (beh m args).1 with
  | .noCall => (false, none)
  | .call a catches =>
    let errv := a.getD .undefined
    let thrown : Option JSVal := if truthy errv then some errv else none
    (true, if catches then none else thrown)

/-- Outcome of an execution-operation call: the promise resolves with a
boolean or rejects with a thrown value. -/
inductive RunResult where
  | ok (b : Bool)
  | err (e : JSVal)
deriving DecidableEq, Repr

/-- `processWithStop(...arguments)` with its invocation trace:
`let isStop = false; const stop = (err) => { isStop = true; if (err) throw err; }; for (const middleware of this.#middlewares) { await middleware(...arguments, stop); if (isStop) return false; } return true;`.
An exception escaping a step rejects the whole call (the `await`
rethrows); otherwise the flag is checked after the step settles. -/
def processWithStopGo (beh : Value → List JSVal → StopCall × JSVal)
    (args : List JSVal) : Chain → RunResult × List Invocation
  | [] => (.ok true, [])
  | m :: rest =>
    let inv : Invocation := (m, args.map ArgVal.val ++ [ArgVal.stopCb])
    match runStepW beh args m with
    | (_, some e) => (.err e, [inv])
    | (stopped, none) =>
      if stopped then
        (.ok false, [inv])
      else
        let r := processWithStopGo beh args rest
        (r.1, inv :: r.2)

/-- `processWithStop` run on a chain from the first step. -/
def processWithStop (beh : Value → List JSVal → StopCall × JSVal)
    (args : List JSVal) (ms : Chain) : RunResult × List Invocation :=
  processWithStopGo beh args ms

/-! ## The wrapping helper (`#wrap`, `wrap`, `wrapWithStop`)

From the bundled source file:
`#wrap(fn, type) { const middlewares = this; return async function() { const result = await middlewares[type](...arguments); if (!result) return; return fn.apply(this, arguments); }; }`.
The returned function is modelled applied to a calling context (`this`)
and an argument list; the downstream function `fn` is modelled by what it
returns given that context and those arguments. -/

/-- The `type` string passed to `#wrap`: which execution operation gates
the downstream function. -/
inductive WrapType where
  | process
  | processWithStop
deriving DecidableEq, Repr

/-- `await middlewares[type](...arguments)`: the outcome of the chosen
execution operation on the chain. -/
def wrapGate (t : WrapType) (ret : Value → List JSVal → JSVal)
    (beh : Value → List JSVal → StopCall × JSVal) (args : List JSVal)
    (ms : Chain) : RunResult :=
  match t with
  | .process => .ok (process ret args ms).1
  | .processWithStop => (processWithStop beh args ms).1

/-- The function returned by `#wrap(fn, type)`, applied to calling context
`thisCtx` and arguments `args`.  Returns the settled outcome of the
wrapped call (resolved value or rejection) together with the invocation of
`fn`, if it happened (`fn.apply(this, arguments)`: same context, same
arguments).  A bare `return;` resolves to `undefined`. -/
def wrapped (t : WrapType) (ret : Value → List JSVal → JSVal)
    (beh : Value → List JSVal → StopCall × JSVal)
    (fn : JSVal → List JSVal → JSVal) (ms : Chain) (thisCtx : JSVal)
    (args : List JSVal) : Except JSVal JSVal × Option (JSVal × List JSVal) :=
  match wrapGate t ret beh args ms with
  | .err e => (.error e, none)
  | .ok result =>
    if !result then
      (.ok .undefined, none)
    else
      (.ok (fn thisCtx args), some (thisCtx, args))

/-- `wrap(fn)`: `this.#wrap(fn, 'process')`. -/
def wrap (ret : Value → List JSVal → JSVal)
    (beh : Value → List JSVal → StopCall × JSVal)
    (fn : JSVal → List JSVal → JSVal) (ms : Chain) (thisCtx : JSVal)
    (args : List JSVal) : Except JSVal JSVal × Option (JSVal × List JSVal) :=
  wrapped .process ret beh fn ms thisCtx args

/-- `wrapWithStop(fn)`: `this.#wrap(fn, 'processWithStop')`. -/
def wrapWithStop (ret : Value → List JSVal → JSVal)
    (beh : Value → List JSVal → StopCall × JSVal)
    (fn : JSVal → List JSVal → JSVal) (ms : Chain) (thisCtx : JSVal)
    (args : List JSVal) : Except JSVal JSVal × Option (JSVal × List JSVal) :=
  wrapped .processWithStop ret beh fn ms thisCtx args

/-! ## Execution with an explicit model of step-performed chain mutation

For the frame property, each step is additionally given a transformation
`eff m st` describing the chain state after step `m` runs starting from
state `st` (identity when the step performs no mutation operation).  The
loop consumes the step sequence captured when the call began; when every
running step leaves the chain alone — the only situation the frame claim
is about — this coincides with the live iteration of the JS `for...of`. -/

/-- `process` threading the chain state through the steps. -/
def processMutGo (ret : Value → List JSVal → JSVal) (eff : Value → Chain → Chain)
    (args : List JSVal) : List Value → Chain → Bool × Chain
  | [], st => (true, st)
  | m :: rest, st =>
    let st' := eff m st
    if ret m args = .bool false then
      (false, st')
    else
      processMutGo ret eff args rest st'

/-- `process` on a chain, returning the final chain state as well. -/
def processMut (ret : Value → List JSVal → JSVal) (eff : Value → Chain → Chain)
    (args : List JSVal) (ms : Chain) : Bool × Chain :=
  processMutGo ret eff args ms ms

/-- `processWithStop` threading the chain state through the steps. -/
def processWithStopMutGo (beh : Value → List JSVal → StopCall × JSVal)
    (eff : Value → Chain → Chain) (args : List JSVal) :
    List Value → Chain → RunResult × Chain
  | [], st => (.ok true, st)
  | m :: rest, st =>
    let st' := eff m st
    match runStepW beh args m with
    | (_, some e) => (.err e, st')
    | (stopped, none) =>
      if stopped then
        (.ok false, st')
      else
        processWithStopMutGo beh eff args rest st'

/-- `processWithStop` on a chain, returning the final chain state as well. -/
def processWithStopMut (beh : Value → List JSVal → StopCall × JSVal)
    (eff : Value → Chain → Chain) (args : List JSVal) (ms : Chain) :
    RunResult × Chain :=
  processWithStopMutGo beh eff args ms ms

/-! ## Specification-side descriptions of relative insertion

These two functions follow the specification's words for
`insertRelative`/`useBefore`/`useAfter` — one copy of the candidate
immediately before (resp. after) every occurrence of the anchor, newly
inserted copies never treated as fresh anchor matches — to be compared
with the splice-loop `useRelative` taken from the source. -/

/-- Insert `z` immediately before every occurrence of `anchor`. -/
def insertBeforeAll (z anchor : Value) : Chain → Chain
  | [] => []
  | m :: rest =>
    if m = anchor then z :: m :: insertBeforeAll z anchor rest
    else m :: insertBeforeAll z anchor rest

/-- Insert `z` immediately after every occurrence of `anchor`. -/
def insertAfterAll (z anchor : Value) : Chain → Chain
  | [] => []
  | m :: rest =>
    if m = anchor then m :: z :: insertAfterAll z anchor rest
    else m :: insertAfterAll z anchor rest

/-! ## Concrete step environments for closed evaluations -/

/-- A concrete resolved-value environment: step `fn 1` resolves to the
literal `false`; step `fn 0` resolves to `0` (falsy but not `false`);
every other step resolves to `true`. -/
def retEx : Value → List JSVal → JSVal
  | .fn 1, _ => .bool false
  | .fn 0, _ => .num 0
  | _, _ => .bool true

/-- A concrete stop-callback behaviour environment: step `fn 1` calls
`stop()` with no argument; step `fn 2` calls `stop(new Error('boom'))` and
lets the resulting throw escape; step `fn 3` calls
`stop(new Error('boom'))` inside a `try`/`catch` that swallows the throw;
every other step never calls the callback. -/
def behEx : Value → List JSVal → StopCall × JSVal
  | .fn 1, _ => (.call none false, .undefined)
  | .fn 2, _ => (.call (some (.error "boom")) false, .undefined)
  | .fn 3, _ => (.call (some (.error "boom")) true, .undefined)
  | _, _ => (.noCall, .undefined)

/-- A concrete downstream function for the wrapping scenarios. -/
def fnEx (_thisCtx : JSVal) (_args : List JSVal) : JSVal :=
  .str "ran"

/-- The step chain-effect of steps that perform no mutation operation. -/
def effId (_m : Value) (st : Chain) : Chain :=
  st

/-! ## Helper lemmas -/

theorem getD_append_cons (pre : Chain) (m : Value) (rest : Chain) (d : Value) :
    (pre ++ m :: rest).getD pre.length d = m := by
  induction pre with
  | nil => rfl
  | cons a t ih => simpa using ih

theorem spliceInsert_append (pre l : Chain) (x : Value) :
    spliceInsert (pre ++ l) pre.length x = pre ++ x :: l := by
  simp [spliceInsert, List.take_left, List.drop_left]

/-- Loop invariant of the `#useRelative` scan with `diff = 0` (BEFORE):
running the loop from index `pre.length` on `pre ++ todo` leaves `pre`
untouched and rewrites `todo` by `insertBeforeAll`. -/
theorem useRelativeLoop_before (z anchor : Value) (todo pre : Chain) :
    useRelativeLoop z anchor 0 (pre ++ todo) pre.length =
      pre ++ insertBeforeAll z anchor todo := by
  induction todo generalizing pre with
  | nil =>
    rw [useRelativeLoop]
    simp [insertBeforeAll]
  | cons m rest ih =>
    rw [useRelativeLoop]
    have hlen : pre.length < (pre ++ m :: rest).length := by simp
    rw [dif_pos hlen, getD_append_cons]
    by_cases hm : anchor = m
    · rw [if_pos hm]
      have hsplice : spliceInsert (pre ++ m :: rest) (pre.length + 0) z =
          (pre ++ [z, m]) ++ rest := by
        simpa using spliceInsert_append pre (m :: rest) z
      have hidx : pre.length + 2 = ((pre ++ [z, m]) : Chain).length := by simp
      rw [hsplice, hidx, ih]
      simp [insertBeforeAll, ← hm]
    · rw [if_neg hm]
      have hidx : pre.length + 1 = ((pre ++ [m]) : Chain).length := by simp
      have happ : pre ++ m :: rest = (pre ++ [m]) ++ rest := by simp
      rw [happ, hidx, ih]
      have hm' : m ≠ anchor := fun h => hm h.symm
      simp [insertBeforeAll, hm']

/-- Loop invariant of the `#useRelative` scan with `diff = 1` (AFTER). -/
theorem useRelativeLoop_after (z anchor : Value) (todo pre : Chain) :
    useRelativeLoop z anchor 1 (pre ++ todo) pre.length =
      pre ++ insertAfterAll z anchor todo := by
  induction todo generalizing pre with
  | nil =>
    rw [useRelativeLoop]
    simp [insertAfterAll]
  | cons m rest ih =>
    rw [useRelativeLoop]
    have hlen : pre.length < (pre ++ m :: rest).length := by simp
    rw [dif_pos hlen, getD_append_cons]
    by_cases hm : anchor = m
    · rw [if_pos hm]
      have hsplice : spliceInsert (pre ++ m :: rest) (pre.length + 1) z =
          (pre ++ [m, z]) ++ rest := by
        have h1 : pre ++ m :: rest = (pre ++ [m]) ++ rest := by simp
        have h2 : pre.length + 1 = ((pre ++ [m]) : Chain).length := by simp
        rw [h1, h2, spliceInsert_append]
        simp
      have hidx : pre.length + 2 = ((pre ++ [m, z]) : Chain).length := by simp
      rw [hsplice, hidx, ih]
      simp [insertAfterAll, ← hm]
    · rw [if_neg hm]
      have hidx : pre.length + 1 = ((pre ++ [m]) : Chain).length := by simp
      have happ : pre ++ m :: rest = (pre ++ [m]) ++ rest := by simp
      rw [happ, hidx, ih]
      have hm' : m ≠ anchor := fun h => hm h.symm
      simp [insertAfterAll, hm']

/-- `#useRelative` with BEFORE refines the specification-side description. -/
theorem useRelative_eq_insertBeforeAll (ms : Chain) (z anchor : Value) :
    useRelative ms z anchor 0 = insertBeforeAll z anchor ms := by
  simpa [useRelative] using useRelativeLoop_before z anchor ms []

/-- `#useRelative` with AFTER refines the specification-side description. -/
theorem useRelative_eq_insertAfterAll (ms : Chain) (z anchor : Value) :
    useRelative ms z anchor 1 = insertAfterAll z anchor ms := by
  simpa [useRelative] using useRelativeLoop_after z anchor ms []

theorem change_append_valid (cmd : Command) (pre rest : List Value) (ms : Chain)
    (hpre : ∀ m ∈ pre, isFunction m = true) :
    change cmd (pre ++ rest) ms = change cmd rest (pre.foldl (applyCommand cmd) ms) := by
  induction pre generalizing ms with
  | nil => rfl
  | cons a t ih =>
    have ha : isFunction a = true := hpre a (by simp)
    simp only [List.cons_append, change, ha, if_pos, List.foldl_cons]
    exact ih (applyCommand cmd ms a) (fun m hm => hpre m (by simp [hm]))

theorem change_invalid_head (cmd : Command) (bad : Value) (rest : List Value)
    (ms : Chain) (hbad : isFunction bad = false) :
    change cmd (bad :: rest) ms = (ms, some .valueIsNotAMiddleware) := by
  simp [change, hbad]

theorem change_all_valid (cmd : Command) (l : List Value) (ms : Chain)
    (h : ∀ m ∈ l, isFunction m = true) :
    change cmd l ms = (l.foldl (applyCommand cmd) ms, none) := by
  have := change_append_valid cmd l [] ms h
  simpa [change] using this

theorem foldl_useOne (l : List Value) (ms : Chain) :
    l.foldl (applyCommand .use) ms = ms ++ l := by
  induction l generalizing ms with
  | nil => simp
  | cons a t ih => simp [applyCommand, useOne, ih]

theorem foldl_useFirstOne_reverse (l : List Value) (ms : Chain) :
    l.reverse.foldl (applyCommand .useFirst) ms = l ++ ms := by
  induction l generalizing ms with
  | nil => rfl
  | cons a t ih =>
    simp only [List.reverse_cons, List.foldl_append, List.foldl_cons, List.foldl_nil]
    simp [ih, applyCommand, useFirstOne]

theorem length_insertBeforeAll (z anchor : Value) (l : Chain) :
    (insertBeforeAll z anchor l).length = l.length + l.count anchor := by
  induction l with
  | nil => simp [insertBeforeAll]
  | cons m rest ih =>
    by_cases hm : m = anchor
    · simp [insertBeforeAll, hm, ih, List.count_cons]
      omega
    · simp [insertBeforeAll, hm, ih, List.count_cons]
      omega

theorem length_insertAfterAll (z anchor : Value) (l : Chain) :
    (insertAfterAll z anchor l).length = l.length + l.count anchor := by
  induction l with
  | nil => simp [insertAfterAll]
  | cons m rest ih =>
    by_cases hm : m = anchor
    · simp [insertAfterAll, hm, ih, List.count_cons]
      omega
    · simp [insertAfterAll, hm, ih, List.count_cons]
      omega

theorem count_insertBeforeAll (z anchor : Value) (l : Chain) (hz : z ≠ anchor) :
    (insertBeforeAll z anchor l).count anchor = l.count anchor := by
  induction l with
  | nil => simp [insertBeforeAll]
  | cons m rest ih =>
    by_cases hm : m = anchor
    · simp [insertBeforeAll, hm, List.count_cons, ih, hz]
    · simp [insertBeforeAll, hm, List.count_cons, ih]

theorem count_insertAfterAll (z anchor : Value) (l : Chain) (hz : z ≠ anchor) :
    (insertAfterAll z anchor l).count anchor = l.count anchor := by
  induction l with
  | nil => simp [insertAfterAll]
  | cons m rest ih =>
    by_cases hm : m = anchor
    · simp [insertAfterAll, hm, List.count_cons, ih, hz]
    · simp [insertAfterAll, hm, List.count_cons, ih]

theorem insertBeforeAll_of_not_mem (z anchor : Value) (l : Chain)
    (h : anchor ∉ l) : insertBeforeAll z anchor l = l := by
  induction l with
  | nil => rfl
  | cons m rest ih =>
    have hm : m ≠ anchor := fun he => h (he ▸ List.mem_cons_self m rest)
    have hrest : anchor ∉ rest := fun hr => h (List.mem_cons_of_mem m hr)
    simp [insertBeforeAll, hm, ih hrest]

theorem insertAfterAll_of_not_mem (z anchor : Value) (l : Chain)
    (h : anchor ∉ l) : insertAfterAll z anchor l = l := by
  induction l with
  | nil => rfl
  | cons m rest ih =>
    have hm : m ≠ anchor := fun he => h (he ▸ List.mem_cons_self m rest)
    have hrest : anchor ∉ rest := fun hr => h (List.mem_cons_of_mem m hr)
    simp [insertAfterAll, hm, ih hrest]

theorem foldl_useRelative_before (cs : List Value) (ms : Chain) (anchor : Value) :
    cs.foldl (applyCommand (.useRelative anchor 0)) ms =
      cs.foldl (fun s c => insertBeforeAll c anchor s) ms := by
  induction cs generalizing ms with
  | nil => rfl
  | cons c t ih =>
    simp only [List.foldl_cons, applyCommand, useRelative_eq_insertBeforeAll]
    exact ih _

theorem foldl_useRelative_after (cs : List Value) (ms : Chain) (anchor : Value) :
    cs.foldl (applyCommand (.useRelative anchor 1)) ms =
      cs.foldl (fun s c => insertAfterAll c anchor s) ms := by
  induction cs generalizing ms with
  | nil => rfl
  | cons c t ih =>
    simp only [List.foldl_cons, applyCommand, useRelative_eq_insertAfterAll]
    exact ih _

theorem length_foldl_insertBeforeAll (cs : List Value) (ms : Chain)
    (anchor : Value) (hne : ∀ c ∈ cs, c ≠ anchor) :
    (cs.foldl (fun s c => insertBeforeAll c anchor s) ms).length =
      ms.length + cs.length * ms.count anchor := by
  induction cs generalizing ms with
  | nil => simp
  | cons c t ih =>
    simp only [List.foldl_cons]
    rw [ih _ (fun x hx => hne x (by simp [hx]))]
    rw [length_insertBeforeAll, count_insertBeforeAll _ _ _ (hne c (by simp))]
    simp [List.length_cons, Nat.succ_mul]
    omega

theorem length_foldl_insertAfterAll (cs : List Value) (ms : Chain)
    (anchor : Value) (hne : ∀ c ∈ cs, c ≠ anchor) :
    (cs.foldl (fun s c => insertAfterAll c anchor s) ms).length =
      ms.length + cs.length * ms.count anchor := by
  induction cs generalizing ms with
  | nil => simp
  | cons c t ih =>
    simp only [List.foldl_cons]
    rw [ih _ (fun x hx => hne x (by simp [hx]))]
    rw [length_insertAfterAll, count_insertAfterAll _ _ _ (hne c (by simp))]
    simp [List.length_cons, Nat.succ_mul]
    omega

theorem processGo_all_continue (ret : Value → List JSVal → JSVal)
    (args : List JSVal) (ms : Chain)
    (h : ∀ m ∈ ms, ret m args ≠ .bool false) :
    processGo ret args ms = (true, ms.map fun m => (m, args.map ArgVal.val)) := by
  induction ms with
  | nil => rfl
  | cons m rest ih =>
    have hm : ret m args ≠ .bool false := h m (by simp)
    have hrest := ih (fun x hx => h x (by simp [hx]))
    simp [processGo, hm, hrest]

theorem processWithStopGo_all_noCall (beh : Value → List JSVal → StopCall × JSVal)
    (args : List JSVal) (ms : Chain)
    (h : ∀ m ∈ ms, (beh m args).1 = .noCall) :
    processWithStopGo beh args ms =
      (.ok true, ms.map fun m => (m, args.map ArgVal.val ++ [ArgVal.stopCb])) := by
  induction ms with
  | nil => rfl
  | cons m rest ih =>
    have hm : runStepW beh args m = (false, none) := by
      unfold runStepW
      rw [h m (by simp)]
    have hrest := ih (fun x hx => h x (by simp [hx]))
    simp [processWithStopGo, hm, hrest]

theorem processGo_stops_at_false (ret : Value → List JSVal → JSVal)
    (args : List JSVal) (pre : Chain) (m : Value) (rest : Chain)
    (hpre : ∀ x ∈ pre, ret x args ≠ .bool false) (hm : ret m args = .bool false) :
    processGo ret args (pre ++ m :: rest) =
      (false, (pre ++ [m]).map fun x => (x, args.map ArgVal.val)) := by
  induction pre with
  | nil => simp [processGo, hm]
  | cons a t ih =>
    have ha : ret a args ≠ .bool false := hpre a (by simp)
    have ht := ih (fun x hx => hpre x (by simp [hx]))
    simp [processGo, ha, ht]

theorem processWithStopGo_stops_after (beh : Value → List JSVal → StopCall × JSVal)
    (args : List JSVal) (pre : Chain) (m : Value) (rest : Chain)
    (hpre : ∀ x ∈ pre, (beh x args).1 = .noCall)
    (hstep : runStepW beh args m = (true, none)) :
    processWithStopGo beh args (pre ++ m :: rest) =
      (.ok false, (pre ++ [m]).map fun x => (x, args.map ArgVal.val ++ [ArgVal.stopCb])) := by
  induction pre with
  | nil => simp [processWithStopGo, hstep]
  | cons a t ih =>
    have ha : runStepW beh args a = (false, none) := by
      unfold runStepW
      rw [hpre a (by simp)]
    have ht := ih (fun x hx => hpre x (by simp [hx]))
    simp [processWithStopGo, ha, ht]

theorem processWithStopGo_throws_at (beh : Value → List JSVal → StopCall × JSVal)
    (args : List JSVal) (pre : Chain) (m : Value) (rest : Chain) (e : JSVal)
    (hpre : ∀ x ∈ pre, (beh x args).1 = .noCall)
    (hstep : runStepW beh args m = (true, some e)) :
    processWithStopGo beh args (pre ++ m :: rest) =
      (.err e, (pre ++ [m]).map fun x => (x, args.map ArgVal.val ++ [ArgVal.stopCb])) := by
  induction pre with
  | nil => simp [processWithStopGo, hstep]
  | cons a t ih =>
    have ha : runStepW beh args a = (false, none) := by
      unfold runStepW
      rw [hpre a (by simp)]
    have ht := ih (fun x hx => hpre x (by simp [hx]))
    simp [processWithStopGo, ha, ht]

theorem processWithStopGo_trace_shape (beh : Value → List JSVal → StopCall × JSVal)
    (args : List JSVal) (ms : Chain) :
    ∀ e ∈ (processWithStopGo beh args ms).2,
      e.2 = args.map ArgVal.val ++ [ArgVal.stopCb] := by
  induction ms with
  | nil => intro e he; simp [processWithStopGo] at he
  | cons m rest ih =>
    intro e he
    rcases hs : runStepW beh args m with ⟨stopped, exc⟩
    rcases exc with _ | ex
    · rcases stopped with _ | _
      · simp [processWithStopGo, hs] at he
        rcases he with h1 | h2
        · simp [h1]
        · exact ih e h2
      · simp [processWithStopGo, hs] at he
        simp [he]
    · simp [processWithStopGo, hs] at he
      simp [he]

theorem runStepW_depends_on_stopCall (beh beh' : Value → List JSVal → StopCall × JSVal)
    (h : ∀ m a, (beh m a).1 = (beh' m a).1) (args : List JSVal) (m : Value) :
    runStepW beh args m = runStepW beh' args m := by
  unfold runStepW
  rw [h m args]

theorem processWithStopGo_ignores_ret (beh beh' : Value → List JSVal → StopCall × JSVal)
    (h : ∀ m a, (beh m a).1 = (beh' m a).1) (args : List JSVal) (ms : Chain) :
    processWithStopGo beh args ms = processWithStopGo beh' args ms := by
  induction ms with
  | nil => rfl
  | cons m rest ih =>
    simp only [processWithStopGo, runStepW_depends_on_stopCall beh beh' h args m, ih]

theorem processMutGo_frame (ret : Value → List JSVal → JSVal)
    (eff : Value → Chain → Chain) (args : List JSVal) (iter : List Value)
    (st : Chain) (heff : ∀ m s, eff m s = s) :
    processMutGo ret eff args iter st = ((processGo ret args iter).1, st) := by
  induction iter generalizing st with
  | nil => rfl
  | cons m rest ih =>
    by_cases hr : ret m args = .bool false <;>
      simp [processMutGo, processGo, hr, heff, ih]

theorem processWithStopMutGo_frame (beh : Value → List JSVal → StopCall × JSVal)
    (eff : Value → Chain → Chain) (args : List JSVal) (iter : List Value)
    (st : Chain) (heff : ∀ m s, eff m s = s) :
    processWithStopMutGo beh eff args iter st =
      ((processWithStopGo beh args iter).1, st) := by
  induction iter generalizing st with
  | nil => rfl
  | cons m rest ih =>
    rcases hs : runStepW beh args m with ⟨stopped, exc⟩
    rcases exc with _ | ex
    · rcases stopped with _ | _ <;>
        simp [processWithStopMutGo, processWithStopGo, hs, heff, ih]
    · simp [processWithStopMutGo, processWithStopGo, hs, heff]

/-! ## Claims -/

/-- C2: `process` invokes the stored steps in order with exactly the
caller's arguments; if some step's awaited result is the literal boolean
`false`, `process` resolves to `false` immediately and no later step is
invoked; if every step resolves to any value other than the literal
`false` (falsy values such as `0`, `null`, `undefined`, `""` included),
`process` resolves to `true` having invoked every step. -/
theorem process_run_until_false (ret : Value → List JSVal → JSVal)
    (args : List JSVal) :
    (∀ ms : Chain, (∀ m ∈ ms, ret m args ≠ .bool false) →
      process ret args ms = (true, ms.map fun m => (m, args.map ArgVal.val))) ∧
    (∀ (pre : Chain) (m : Value) (rest : Chain),
      (∀ x ∈ pre, ret x args ≠ .bool false) → ret m args = .bool false →
      process ret args (pre ++ m :: rest) =
        (false, (pre ++ [m]).map fun x => (x, args.map ArgVal.val))) := by
  constructor
  · intro ms h
    exact processGo_all_continue ret args ms h
  · intro pre m rest hpre hm
    exact processGo_stops_at_false ret args pre m rest hpre hm

/-- Witness for C2: with `retEx`, the chain `[fn 0, fn 4]` (where `fn 0`
resolves `0`, falsy but not `false`) completes with `true` invoking both
steps with exactly the caller's argument, while `[fn 0, fn 1, fn 4]`
(where `fn 1` resolves the literal `false`) resolves `false` without
invoking `fn 4`. -/
theorem process_run_until_false_witness :
    process retEx [JSVal.num 7] [Value.fn 0, Value.fn 4] =
      (true, [(Value.fn 0, [ArgVal.val (JSVal.num 7)]),
              (Value.fn 4, [ArgVal.val (JSVal.num 7)])]) ∧
    process retEx [JSVal.num 7] ([Value.fn 0] ++ Value.fn 1 :: [Value.fn 4]) =
      (false, [(Value.fn 0, [ArgVal.val (JSVal.num 7)]),
               (Value.fn 1, [ArgVal.val (JSVal.num 7)])]) := by
  constructor
  · have h := (process_run_until_false retEx [JSVal.num 7]).1
      [Value.fn 0, Value.fn 4]
      (by intro m hm; simp at hm; rcases hm with rfl | rfl <;> decide)
    simpa using h
  · have h := (process_run_until_false retEx [JSVal.num 7]).2
      [Value.fn 0] (Value.fn 1) [Value.fn 4]
      (by intro m hm; simp at hm; subst hm; decide) (by decide)
    simpa using h

/-- C5: `unuse` of a (valid) value removes every occurrence of that value
from the chain — the result equals filtering the value out — so the value
no longer occurs, the remainder keeps its relative order (it is a sublist
of the original chain), and removing a value not present leaves the chain
unchanged and raises no error. -/
theorem unuse_removes_all (ms : Chain) (x : Value) (hx : isFunction x = true) :
    unuse ms [x] = (ms.filter (fun m => m != x), none) ∧
    x ∉ (unuse ms [x]).1 ∧
    (unuse ms [x]).1.Sublist ms ∧
    (x ∉ ms → unuse ms [x] = (ms, none)) := by
  have hbase : unuse ms [x] = (unuseOne ms x, none) := by
    simp [unuse, change, hx, applyCommand]
  refine ⟨by simpa [unuseOne] using hbase, ?_, ?_, ?_⟩
  · rw [hbase]
    simp [unuseOne, List.mem_filter]
  · rw [hbase]
    exact List.filter_sublist ms
  · intro hnm
    rw [hbase]
    have hself : unuseOne ms x = ms := by
      apply List.filter_eq_self.mpr
      intro a ha
      simp only [bne_iff_ne, ne_eq, decide_eq_true_eq]
      exact fun he => hnm (he ▸ ha)
    rw [hself]

/-- Witness for C5: removing `fn 0` from `[fn 0, fn 1, fn 0, fn 2]`
removes both occurrences, yielding `[fn 1, fn 2]`; removing the absent
`fn 9` is a no-op with no error. -/
theorem unuse_removes_all_witness :
    unuse [Value.fn 0, Value.fn 1, Value.fn 0, Value.fn 2] [Value.fn 0] =
      ([Value.fn 1, Value.fn 2], none) ∧
    Value.fn 0 ∉ (unuse [Value.fn 0, Value.fn 1, Value.fn 0, Value.fn 2] [Value.fn 0]).1 ∧
    unuse [Value.fn 1, Value.fn 2] [Value.fn 9] = ([Value.fn 1, Value.fn 2], none) := by
  have h := unuse_removes_all [Value.fn 0, Value.fn 1, Value.fn 0, Value.fn 2]
    (Value.fn 0) (by decide)
  have h9 := unuse_removes_all [Value.fn 1, Value.fn 2] (Value.fn 9) (by decide)
  exact ⟨by simpa using h.1, h.2.1, h9.2.2.2 (by decide)⟩

/-- C6: `useFirst` with an all-valid candidate list prepends the
candidates to the chain preserving the caller's given order at the head:
prepending `[P, Q]` to existing `[X, Y]` yields `[P, Q, X, Y]`. -/
theorem useFirst_prepends_in_caller_order (ms : Chain) (cs : List Value)
    (h : ∀ m ∈ cs, isFunction m = true) :
    useFirst ms cs = (cs ++ ms, none) := by
  have hrev : ∀ m ∈ cs.reverse, isFunction m = true := fun m hm =>
    h m (List.mem_reverse.mp hm)
  rw [useFirst, change_all_valid _ _ _ hrev, foldl_useFirstOne_reverse]

/-- Witness for C6: prepending `[fn 0, fn 1]` to `[fn 10, fn 11]` yields
`[fn 0, fn 1, fn 10, fn 11]`. -/
theorem useFirst_prepends_in_caller_order_witness :
    useFirst [Value.fn 10, Value.fn 11] [Value.fn 0, Value.fn 1] =
      ([Value.fn 0, Value.fn 1, Value.fn 10, Value.fn 11], none) := by
  have h := useFirst_prepends_in_caller_order [Value.fn 10, Value.fn 11]
    [Value.fn 0, Value.fn 1]
    (by intro m hm; simp at hm; rcases hm with rfl | rfl <;> decide)
  simpa using h

/-- Counterexample to C3: `useFirst` reverses its candidate list before
the validate-and-apply loop, so candidates are not processed in
left-to-right caller order.  Calling `useFirst(fn 1, other 2, fn 3)` on an
empty chain raises the invalid-step error with `[fn 3]` — the candidate
*after* the invalid one in caller order — applied, not `[fn 1]` as the
claim requires. -/
theorem change_interleave_cex :
    useFirst [] [Value.fn 1, Value.other 2, Value.fn 3] =
      ([Value.fn 3], some MiddlewaresError.valueIsNotAMiddleware) ∧
    ([Value.fn 3] : Chain) ≠ [Value.fn 1] := by
  decide

/-- C3 amended: for `use`, `unuse`, `useBefore` and `useAfter`, candidates
are validated and applied one at a time in left-to-right caller order, the
first invalid candidate raises the invalid-step error and aborts the
remaining candidates, and exactly the candidates preceding the invalid one
(in caller order) are already applied.  For `useFirst`, the candidate list
is reversed before the same loop, so candidates are processed in reverse
caller order: when every candidate after the invalid one is valid, the
error is raised with exactly the candidates following the invalid one (in
caller order) already applied, sitting at the head of the chain in caller
order. -/
theorem change_interleave_amended (ms : Chain) (pre : List Value) (bad : Value)
    (rest : List Value) (hpre : ∀ m ∈ pre, isFunction m = true)
    (hbad : isFunction bad = false) :
    use ms (pre ++ bad :: rest) =
      (ms ++ pre, some MiddlewaresError.valueIsNotAMiddleware) ∧
    unuse ms (pre ++ bad :: rest) =
      (pre.foldl unuseOne ms, some MiddlewaresError.valueIsNotAMiddleware) ∧
    (∀ anchor : Value,
      useBefore ms anchor (pre ++ bad :: rest) =
        (pre.foldl (fun s c => insertBeforeAll c anchor s) ms,
         some MiddlewaresError.valueIsNotAMiddleware) ∧
      useAfter ms anchor (pre ++ bad :: rest) =
        (pre.foldl (fun s c => insertAfterAll c anchor s) ms,
         some MiddlewaresError.valueIsNotAMiddleware)) ∧
    ((∀ m ∈ rest, isFunction m = true) →
      useFirst ms (pre ++ bad :: rest) =
        (rest ++ ms, some MiddlewaresError.valueIsNotAMiddleware)) := by
  refine ⟨?_, ?_, ?_, ?_⟩
  · rw [use, change_append_valid _ _ _ _ hpre, change_invalid_head _ _ _ _ hbad,
      foldl_useOne]
  · rw [unuse, change_append_valid _ _ _ _ hpre, change_invalid_head _ _ _ _ hbad]
    rfl
  · intro anchor
    constructor
    · rw [useBefore, RelativePosition.BEFORE,
        change_append_valid _ _ _ _ hpre, change_invalid_head _ _ _ _ hbad,
        foldl_useRelative_before]
    · rw [useAfter, RelativePosition.AFTER,
        change_append_valid _ _ _ _ hpre, change_invalid_head _ _ _ _ hbad,
        foldl_useRelative_after]
  · intro hrest
    have hrev : (pre ++ bad :: rest).reverse = rest.reverse ++ bad :: pre.reverse := by
      simp
    have hrevv : ∀ m ∈ rest.reverse, isFunction m = true := fun m hm =>
      hrest m (List.mem_reverse.mp hm)
    rw [useFirst, hrev, change_append_valid _ _ _ _ hrevv,
      foldl_useFirstOne_reverse, change_invalid_head _ _ _ _ hbad]

/-- Witness for the amended C3: on the empty chain, `use(fn 1, other 2, fn 3)`
applies `[fn 1]` and raises; `useFirst(fn 1, other 2, fn 3)` applies
`[fn 3]` and raises. -/
theorem change_interleave_amended_witness :
    use [] ([Value.fn 1] ++ Value.other 2 :: [Value.fn 3]) =
      ([Value.fn 1], some MiddlewaresError.valueIsNotAMiddleware) ∧
    useFirst [] ([Value.fn 1] ++ Value.other 2 :: [Value.fn 3]) =
      ([Value.fn 3], some MiddlewaresError.valueIsNotAMiddleware) := by
  have h := change_interleave_amended [] [Value.fn 1] (Value.other 2) [Value.fn 3]
    (by intro m hm; simp at hm; subst hm; decide) (by decide)
  refine ⟨by simpa using h.1, ?_⟩
  have h4 := h.2.2.2 (by intro m hm; simp at hm; subst hm; decide)
  simpa using h4

/-- C4: `useBefore`/`useAfter` with a valid candidate insert one copy of
the candidate immediately before (resp. after) every occurrence of the
anchor, never re-scanning a newly inserted element as a fresh anchor
match (the result is exactly the specification-side
`insertBeforeAll`/`insertAfterAll`); with the anchor absent nothing is
inserted and no error is raised; and on `[A, anchor, B, anchor, C]`
inserting `z` before the anchor yields `[A, z, anchor, B, z, anchor, C]`. -/
theorem useRelative_every_occurrence (ms : Chain) (anchor z : Value)
    (hz : isFunction z = true) (A B C : Value) (hA : A ≠ anchor)
    (hB : B ≠ anchor) (hC : C ≠ anchor) :
    useBefore ms anchor [z] = (insertBeforeAll z anchor ms, none) ∧
    useAfter ms anchor [z] = (insertAfterAll z anchor ms, none) ∧
    (anchor ∉ ms →
      useBefore ms anchor [z] = (ms, none) ∧ useAfter ms anchor [z] = (ms, none)) ∧
    useBefore [A, anchor, B, anchor, C] anchor [z] =
      ([A, z, anchor, B, z, anchor, C], none) := by
  have hbefore : ∀ s : Chain, useBefore s anchor [z] = (insertBeforeAll z anchor s, none) := by
    intro s
    rw [useBefore, RelativePosition.BEFORE]
    simp [change, hz, applyCommand, useRelative_eq_insertBeforeAll]
  have hafter : ∀ s : Chain, useAfter s anchor [z] = (insertAfterAll z anchor s, none) := by
    intro s
    rw [useAfter, RelativePosition.AFTER]
    simp [change, hz, applyCommand, useRelative_eq_insertAfterAll]
  refine ⟨hbefore ms, hafter ms, ?_, ?_⟩
  · intro habs
    rw [hbefore ms, hafter ms, insertBeforeAll_of_not_mem _ _ _ habs,
      insertAfterAll_of_not_mem _ _ _ habs]
    exact ⟨rfl, rfl⟩
  · rw [hbefore [A, anchor, B, anchor, C]]
    simp [insertBeforeAll, hA, hB, hC]

/-- Witness for C4: inserting `fn 6` before anchor `fn 5` in
`[fn 7, fn 5, fn 8, fn 5, fn 9]` yields
`[fn 7, fn 6, fn 5, fn 8, fn 6, fn 5, fn 9]`; with the anchor absent the
chain `[fn 7]` is unchanged. -/
theorem useRelative_every_occurrence_witness :
    useBefore [Value.fn 7, Value.fn 5, Value.fn 8, Value.fn 5, Value.fn 9]
        (Value.fn 5) [Value.fn 6] =
      ([Value.fn 7, Value.fn 6, Value.fn 5, Value.fn 8, Value.fn 6, Value.fn 5,
        Value.fn 9], none) ∧
    useBefore [Value.fn 7] (Value.fn 5) [Value.fn 6] = ([Value.fn 7], none) ∧
    useAfter [Value.fn 7] (Value.fn 5) [Value.fn 6] = ([Value.fn 7], none) := by
  have h := useRelative_every_occurrence
    [Value.fn 7, Value.fn 5, Value.fn 8, Value.fn 5, Value.fn 9]
    (Value.fn 5) (Value.fn 6) (by decide)
    (Value.fn 7) (Value.fn 8) (Value.fn 9) (by decide) (by decide) (by decide)
  have habs := useRelative_every_occurrence [Value.fn 7] (Value.fn 5) (Value.fn 6)
    (by decide) (Value.fn 7) (Value.fn 8) (Value.fn 9)
    (by decide) (by decide) (by decide)
  have h3 := habs.2.2.1 (by decide)
  exact ⟨h.2.2.2, h3.1, h3.2⟩

/-- Counterexample to C10's growth formula: `useBefore` on chain `[fn 0]`
with anchor `fn 0` and the two valid candidates `fn 0, fn 1` grows the
chain to length 4, not to `1 + 2 × 1 = 3` as the claimed formula
`(number of valid candidates) × (number of pre-existing anchor occurrences)`
requires — the copies of the anchor inserted while applying the first
candidate are seen as fresh anchor occurrences by the second candidate's
scan. -/
theorem useRelative_growth_cex :
    useBefore [Value.fn 0] (Value.fn 0) [Value.fn 0, Value.fn 1] =
      ([Value.fn 1, Value.fn 0, Value.fn 1, Value.fn 0], none) ∧
    (useBefore [Value.fn 0] (Value.fn 0) [Value.fn 0, Value.fn 1]).1.length ≠
      ([Value.fn 0] : Chain).length +
        2 * List.count (Value.fn 0) ([Value.fn 0] : Chain) := by
  have h : useBefore [Value.fn 0] (Value.fn 0) [Value.fn 0, Value.fn 1] =
      ([Value.fn 1, Value.fn 0, Value.fn 1, Value.fn 0], none) := by
    rw [useBefore, RelativePosition.BEFORE]
    simp [change, isFunction, applyCommand, useRelative_eq_insertBeforeAll,
      insertBeforeAll]
  refine ⟨h, ?_⟩
  rw [h]
  decide

/-- C10 amended: a `useBefore`/`useAfter` call always terminates, the
forward scan never re-scans a newly inserted element, and a call with a
single valid candidate equal to the anchor inserts exactly one copy per
occurrence of the anchor that existed before the call; the chain's length
grows by exactly (number of valid candidates) × (number of pre-existing
anchor occurrences) provided no candidate equals the anchor (applying a
candidate equal to the anchor increases the anchor occurrences seen by
the scans of the later candidates). -/
theorem useRelative_growth_amended (ms : Chain) (anchor : Value)
    (cs : List Value) (hcs : ∀ c ∈ cs, isFunction c = true)
    (hne : ∀ c ∈ cs, c ≠ anchor) :
    (useBefore ms anchor cs).1.length =
      ms.length + cs.length * ms.count anchor ∧
    (useAfter ms anchor cs).1.length =
      ms.length + cs.length * ms.count anchor ∧
    (isFunction anchor = true →
      (useBefore ms anchor [anchor]).1.length = ms.length + ms.count anchor ∧
      (useAfter ms anchor [anchor]).1.length = ms.length + ms.count anchor) := by
  refine ⟨?_, ?_, ?_⟩
  · rw [useBefore, RelativePosition.BEFORE, change_all_valid _ _ _ hcs,
      foldl_useRelative_before]
    exact length_foldl_insertBeforeAll cs ms anchor hne
  · rw [useAfter, RelativePosition.AFTER, change_all_valid _ _ _ hcs,
      foldl_useRelative_after]
    exact length_foldl_insertAfterAll cs ms anchor hne
  · intro hanchor
    constructor
    · rw [useBefore, RelativePosition.BEFORE]
      simp only [change, hanchor, if_pos, applyCommand,
        useRelative_eq_insertBeforeAll]
      exact length_insertBeforeAll anchor anchor ms
    · rw [useAfter, RelativePosition.AFTER]
      simp only [change, hanchor, if_pos, applyCommand,
        useRelative_eq_insertAfterAll]
      exact length_insertAfterAll anchor anchor ms

/-- Witness for the amended C10: on `[fn 5, fn 0, fn 5]` (anchor `fn 5`
occurring twice), inserting the candidates `fn 1, fn 2` grows the length
from 3 to `3 + 2 × 2 = 7`, and inserting the single candidate `fn 5`
(equal to the anchor) grows it from 3 to `3 + 2 = 5`. -/
theorem useRelative_growth_amended_witness :
    (useBefore [Value.fn 5, Value.fn 0, Value.fn 5] (Value.fn 5)
      [Value.fn 1, Value.fn 2]).1.length = 7 ∧
    (useBefore [Value.fn 5, Value.fn 0, Value.fn 5] (Value.fn 5)
      [Value.fn 5]).1.length = 5 := by
  have h := useRelative_growth_amended [Value.fn 5, Value.fn 0, Value.fn 5]
    (Value.fn 5) [Value.fn 1, Value.fn 2]
    (by intro c hc; simp at hc; rcases hc with rfl | rfl <;> decide)
    (by intro c hc; simp at hc; rcases hc with rfl | rfl <;> decide)
  have h3 := h.2.2 (by decide)
  exact ⟨by simpa using h.1, by simpa using h3.1⟩

/-- C7: `processWithStop` invokes each step with the caller's arguments
followed by exactly one extra trailing stop-callback; if a step calls the
callback with no argument, the flag is set, no later step is invoked, and
the call resolves `false`; the step's resolved value is entirely ignored
(only the stop-callback component of the behaviour matters); if no step
calls the callback, the call resolves `true` having invoked every step. -/
theorem processWithStop_callback_stop (beh : Value → List JSVal → StopCall × JSVal)
    (args : List JSVal) :
    (∀ ms : Chain, ∀ e ∈ (processWithStop beh args ms).2,
      e.2 = args.map ArgVal.val ++ [ArgVal.stopCb]) ∧
    (∀ ms : Chain, (∀ m ∈ ms, (beh m args).1 = .noCall) →
      processWithStop beh args ms =
        (.ok true, ms.map fun m => (m, args.map ArgVal.val ++ [ArgVal.stopCb]))) ∧
    (∀ (pre : Chain) (m : Value) (rest : Chain) (c : Bool),
      (∀ x ∈ pre, (beh x args).1 = .noCall) → (beh m args).1 = .call none c →
      processWithStop beh args (pre ++ m :: rest) =
        (.ok false,
         (pre ++ [m]).map fun x => (x, args.map ArgVal.val ++ [ArgVal.stopCb]))) ∧
    (∀ beh' : Value → List JSVal → StopCall × JSVal,
      (∀ m a, (beh m a).1 = (beh' m a).1) →
      ∀ ms : Chain, processWithStop beh args ms = processWithStop beh' args ms) := by
  refine ⟨?_, ?_, ?_, ?_⟩
  · intro ms
    exact processWithStopGo_trace_shape beh args ms
  · intro ms h
    exact processWithStopGo_all_noCall beh args ms h
  · intro pre m rest c hpre hm
    have hstep : runStepW beh args m = (true, none) := by
      unfold runStepW
      rw [hm]
      simp [Option.getD, truthy]
    exact processWithStopGo_stops_after beh args pre m rest hpre hstep
  · intro beh' h ms
    exact processWithStopGo_ignores_ret beh beh' h args ms

/-- Witness for C7: with `behEx` and argument list `[num 7]`, the chain
`[fn 4, fn 5]` (no step calls the callback) resolves `true` with both
steps invoked with the argument plus the trailing callback, while
`[fn 4, fn 1, fn 5]` (where `fn 1` calls `stop()` with no argument)
resolves `false` without invoking `fn 5`. -/
theorem processWithStop_callback_stop_witness :
    processWithStop behEx [JSVal.num 7] [Value.fn 4, Value.fn 5] =
      (.ok true, [(Value.fn 4, [ArgVal.val (JSVal.num 7), ArgVal.stopCb]),
                  (Value.fn 5, [ArgVal.val (JSVal.num 7), ArgVal.stopCb])]) ∧
    processWithStop behEx [JSVal.num 7] ([Value.fn 4] ++ Value.fn 1 :: [Value.fn 5]) =
      (.ok false, [(Value.fn 4, [ArgVal.val (JSVal.num 7), ArgVal.stopCb]),
                   (Value.fn 1, [ArgVal.val (JSVal.num 7), ArgVal.stopCb])]) := by
  constructor
  · have h := (processWithStop_callback_stop behEx [JSVal.num 7]).2.1
      [Value.fn 4, Value.fn 5]
      (by intro m hm; simp at hm; rcases hm with rfl | rfl <;> decide)
    simpa using h
  · have h := (processWithStop_callback_stop behEx [JSVal.num 7]).2.2.1
      [Value.fn 4] (Value.fn 1) [Value.fn 5] false
      (by intro m hm; simp at hm; subst hm; decide) (by decide)
    simpa using h

/-- Counterexample to C1: the stop-callback's
`if (err) throw err` throws *synchronously inside the step*, not after the
step's own completion, so a step can catch it.  Step `fn 3` of `behEx`
calls `stop(new Error('boom'))` inside a `try`/`catch`: the call resolves
to `false` instead of failing with that error, contradicting the claim
that the whole operation fails with the signalled error. -/
theorem processWithStop_error_cex :
    processWithStop behEx [] [Value.fn 3, Value.fn 4] =
      (.ok false, [(Value.fn 3, [ArgVal.stopCb])]) ∧
    RunResult.ok false ≠ RunResult.err (JSVal.error "boom") := by
  exact ⟨by decide, by decide⟩

/-- C1 amended: if a step calls the stop-callback with an error-like
(truthy) argument, the callback sets the stop flag and throws that error
synchronously inside the step; no subsequent step is invoked in any case,
and the whole operation fails with that same error exactly when the step
lets the throw escape (`catches = false`) — a step that catches the throw
completes normally and the operation resolves to `false`. -/
theorem processWithStop_error_amended (beh : Value → List JSVal → StopCall × JSVal)
    (args : List JSVal) (pre : Chain) (m : Value) (rest : Chain) (e : JSVal)
    (catches : Bool) (hpre : ∀ x ∈ pre, (beh x args).1 = .noCall)
    (hm : (beh m args).1 = .call (some e) catches) (he : truthy e = true) :
    processWithStop beh args (pre ++ m :: rest) =
      (if catches then RunResult.ok false else RunResult.err e,
       (pre ++ [m]).map fun x => (x, args.map ArgVal.val ++ [ArgVal.stopCb])) := by
  rcases catches with _ | _
  · have hstep : runStepW beh args m = (true, some e) := by
      unfold runStepW
      rw [hm]
      simp [he]
    simpa using processWithStopGo_throws_at beh args pre m rest e hpre hstep
  · have hstep : runStepW beh args m = (true, none) := by
      unfold runStepW
      rw [hm]
      simp [he]
    simpa using processWithStopGo_stops_after beh args pre m rest hpre hstep

/-- Witness for the amended C1: step `fn 2` lets the throw escape, so the
run on `[fn 4, fn 2, fn 5]` rejects with the error and `fn 5` is never
invoked; step `fn 3` catches it, so the run on `[fn 4, fn 3, fn 5]`
resolves `false` and `fn 5` is never invoked. -/
theorem processWithStop_error_amended_witness :
    processWithStop behEx [] ([Value.fn 4] ++ Value.fn 2 :: [Value.fn 5]) =
      (.err (JSVal.error "boom"),
       [(Value.fn 4, [ArgVal.stopCb]), (Value.fn 2, [ArgVal.stopCb])]) ∧
    processWithStop behEx [] ([Value.fn 4] ++ Value.fn 3 :: [Value.fn 5]) =
      (.ok false,
       [(Value.fn 4, [ArgVal.stopCb]), (Value.fn 3, [ArgVal.stopCb])]) := by
  constructor
  · have h := processWithStop_error_amended behEx [] [Value.fn 4] (Value.fn 2)
      [Value.fn 5] (JSVal.error "boom") false
      (by intro x hx; simp at hx; subst hx; decide) (by decide) (by decide)
    simpa using h
  · have h := processWithStop_error_amended behEx [] [Value.fn 4] (Value.fn 3)
      [Value.fn 5] (JSVal.error "boom") true
      (by intro x hx; simp at hx; subst hx; decide) (by decide) (by decide)
    simpa using h

/-- C8: the function returned by `wrap` (resp. `wrapWithStop`) runs
`process` (resp. `processWithStop`) with its own arguments; if that
operation resolves `true` it invokes the downstream function with the
same arguments and the same calling context and returns its result; if it
resolves `false` the wrapped function resolves `undefined` and the
downstream function is never invoked. -/
theorem wrap_gates_downstream (ret : Value → List JSVal → JSVal)
    (beh : Value → List JSVal → StopCall × JSVal)
    (fn : JSVal → List JSVal → JSVal) (ms : Chain) (thisCtx : JSVal)
    (args : List JSVal) :
    ((process ret args ms).1 = true →
      wrap ret beh fn ms thisCtx args =
        (.ok (fn thisCtx args), some (thisCtx, args))) ∧
    ((process ret args ms).1 = false →
      wrap ret beh fn ms thisCtx args = (.ok JSVal.undefined, none)) ∧
    ((processWithStop beh args ms).1 = .ok true →
      wrapWithStop ret beh fn ms thisCtx args =
        (.ok (fn thisCtx args), some (thisCtx, args))) ∧
    ((processWithStop beh args ms).1 = .ok false →
      wrapWithStop ret beh fn ms thisCtx args = (.ok JSVal.undefined, none)) := by
  refine ⟨?_, ?_, ?_, ?_⟩ <;> intro h <;>
    simp [wrap, wrapWithStop, wrapped, wrapGate, h]

/-- Witness for C8: with gate chain `[fn 4]` (operation resolves `true`)
the wrapped call returns the downstream result `"ran"` invoked with the
caller's context `null` and argument `[num 7]`; with gate chain `[fn 1]`
(operation resolves `false` in both modes) it resolves `undefined` and
the downstream function is never invoked. -/
theorem wrap_gates_downstream_witness :
    wrap retEx behEx fnEx [Value.fn 4] JSVal.null [JSVal.num 7] =
      (.ok (JSVal.str "ran"), some (JSVal.null, [JSVal.num 7])) ∧
    wrap retEx behEx fnEx [Value.fn 1] JSVal.null [JSVal.num 7] =
      (.ok JSVal.undefined, none) ∧
    wrapWithStop retEx behEx fnEx [Value.fn 4] JSVal.null [JSVal.num 7] =
      (.ok (JSVal.str "ran"), some (JSVal.null, [JSVal.num 7])) ∧
    wrapWithStop retEx behEx fnEx [Value.fn 1] JSVal.null [JSVal.num 7] =
      (.ok JSVal.undefined, none) := by
  refine ⟨?_, ?_, ?_, ?_⟩
  · have h := (wrap_gates_downstream retEx behEx fnEx [Value.fn 4] JSVal.null
      [JSVal.num 7]).1 (by decide)
    simpa [fnEx] using h
  · exact (wrap_gates_downstream retEx behEx fnEx [Value.fn 1] JSVal.null
      [JSVal.num 7]).2.1 (by decide)
  · have h := (wrap_gates_downstream retEx behEx fnEx [Value.fn 4] JSVal.null
      [JSVal.num 7]).2.2.1 (by decide)
    simpa [fnEx] using h
  · exact (wrap_gates_downstream retEx behEx fnEx [Value.fn 1] JSVal.null
      [JSVal.num 7]).2.2.2 (by decide)

/-- C9: when no running step mutates the chain (every step's chain-effect
is the identity), both execution operations leave the stored step
sequence unchanged — contents, order and length — for completed-true and
stopped-false outcomes alike, and their outcome agrees with the base
embedding. -/
theorem exec_frame (ret : Value → List JSVal → JSVal)
    (beh : Value → List JSVal → StopCall × JSVal) (eff : Value → Chain → Chain)
    (args : List JSVal) (ms : Chain) (heff : ∀ m st, eff m st = st) :
    (processMut ret eff args ms).2 = ms ∧
    (processWithStopMut beh eff args ms).2 = ms ∧
    (processMut ret eff args ms).1 = (process ret args ms).1 ∧
    (processWithStopMut beh eff args ms).1 = (processWithStop beh args ms).1 := by
  have h1 := processMutGo_frame ret eff args ms ms heff
  have h2 := processWithStopMutGo_frame beh eff args ms ms heff
  rw [processMut, processWithStopMut, h1, h2]
  exact ⟨rfl, rfl, rfl, rfl⟩

/-- Witness for C9: with identity chain-effects, `[fn 4, fn 1, fn 5]`
(stopped-false in both modes) and `[fn 4, fn 5]` (completed-true in both
modes) are unchanged after either execution operation. -/
theorem exec_frame_witness :
    (processMut retEx effId [] [Value.fn 4, Value.fn 1, Value.fn 5]).2 =
      [Value.fn 4, Value.fn 1, Value.fn 5] ∧
    (processWithStopMut behEx effId [] [Value.fn 4, Value.fn 1, Value.fn 5]).2 =
      [Value.fn 4, Value.fn 1, Value.fn 5] ∧
    (processMut retEx effId [] [Value.fn 4, Value.fn 5]).2 =
      [Value.fn 4, Value.fn 5] ∧
    (processWithStopMut behEx effId [] [Value.fn 4, Value.fn 5]).2 =
      [Value.fn 4, Value.fn 5] := by
  have h1 := exec_frame retEx behEx effId [] [Value.fn 4, Value.fn 1, Value.fn 5]
    (fun _ _ => rfl)
  have h2 := exec_frame retEx behEx effId [] [Value.fn 4, Value.fn 5]
    (fun _ _ => rfl)
  exact ⟨h1.1, h1.2.1, h2.1, h2.2.1⟩

end SmallMiddlewares
